import Mathlib

/-!
Verification of the real-time voice-triggered assistant
(`src/1.py`, with the assembler also appearing in `src/test.py`).

The development shallowly embeds:
* the configuration constants of `1.py`;
* Python's `str.strip` truthiness test and the `in` substring operator,
  used by the transcript filter and the keyword detector;
* the chunk assembler of `transcribe_and_detect` / `transcribe_real_time`
  (the inner `while collected_frames < target_frames` loop over
  `audio_queue.get(timeout=1)`);
* peak normalization `audio / np.max(np.abs(audio)) if ... else audio`,
  with samples modelled as rationals;
* an interleaving machine for the concurrent part: the detection step
  (lines 97-105 of `1.py`), `speak_response`, and the
  `threading.Timer(30, reset_response_status)` cool-down callback,
  all sharing `response_lock` and the `has_responded` flag.
-/

/-! ### Configuration constants (`1.py` lines 10-15, `test.py` lines 9-10) -/

def SAMPLING_RATE : Nat := 16000

/-- `CHUNK_DURATION` in `src/1.py` (line 11). -/
def CHUNK_DURATION : Nat := 5

/-- `CHUNK_DURATION` in `src/test.py` (line 10): the 2-second window used by
the spec's chunking scenarios. -/
def CHUNK_DURATION_TEST : Nat := 2

def KEYWORD : String := "導診助手"

def RESPONSE_TEXT : String := "您好，请问需要导诊服务还是安全监护？"

/-- The delay passed to `threading.Timer` in `speak_response` (`1.py` line 54). -/
def cooldownSeconds : Nat := 30

/-! ### Python string primitives

`result["text"].strip()` and `KEYWORD in result["text"]`, modelled on
`List Char`. -/

/-- Python whitespace test for the characters `str.strip` removes. -/
def isPySpace (c : Char) : Bool :=
  c == ' ' || c == '\t' || c == '\n' || c == '\r' || c == '\x0b' || c == '\x0c'

/-- Python `str.strip()`: drop leading and trailing whitespace. -/
def pyStrip (l : List Char) : List Char :=
  ((l.dropWhile isPySpace).reverse.dropWhile isPySpace).reverse

/-- Does `l` begin with `pat`? Helper for the substring test. -/
def beginsWith : List Char → List Char → Bool
  | [], _ => true
  | _ :: _, [] => false
  | p :: ps, c :: cs => p == c && beginsWith ps cs

/-- Python's `pat in text` substring operator on character lists. -/
def hasSubstring (pat : List Char) : List Char → Bool
  | [] => pat.isEmpty
  | c :: cs => beginsWith pat (c :: cs) || hasSubstring pat cs

/-- The keyword check `KEYWORD in text` of `1.py` line 102. -/
def keywordIn (text : String) : Bool :=
  hasSubstring KEYWORD.toList text.toList

/-! ### Chunk assembler (`1.py` lines 69-87, `test.py` lines 37-55)

One call to `audio_queue.get(timeout=1)` either returns a frame or raises
`queue.Empty`; the loop's view of the queue is the list of these pop
results. A sample is a rational number (the float values play no numeric
role before normalization). -/

/-- Result of one `audio_queue.get(timeout=1)` call. -/
inductive PopResult where
  | frame (f : List ℚ)
  | timeout
deriving DecidableEq

/-- Total number of samples in a list of frames. -/
def sumLens (fs : List (List ℚ)) : Nat := (fs.map List.length).sum

/-- The inner collection loop: `while collected_frames < target_frames:`
pop with timeout, append the frame and add its length, or `break` on
`queue.Empty`. Returns the collected frames and the unread rest of the
pop-result stream. An exhausted stream models a forever-idle queue. -/
def collectLoop (target : Nat) : Nat → List (List ℚ) → List PopResult →
    List (List ℚ) × List PopResult
  | collected, acc, input =>
    if collected < target then
      match input with
      | [] => (acc, [])
      | PopResult.timeout :: rest => (acc, rest)
      | PopResult.frame f :: rest =>
          collectLoop target (collected + f.length) (acc ++ [f]) rest
    else (acc, input)
  termination_by _ _ input => input.length

/-- One iteration of the outer `while True` loop up to chunk production:
collect frames, and concatenate them if any were collected
(`if audio_chunks: audio = np.concatenate(audio_chunks)`). Returns the
optional chunk and the unread rest of the pop stream. -/
def assembleChunk (target : Nat) (input : List PopResult) :
    Option (List ℚ) × List PopResult :=
  let r := collectLoop target 0 [] input
  (if r.1.isEmpty then none else some r.1.flatten, r.2)

/-! ### Peak normalization (`1.py` lines 85-87) -/

/-- `np.max(np.abs(audio))` (0 for the empty chunk, which the
`if audio_chunks:` guard rules out anyway). -/
def peakAbs (chunk : List ℚ) : ℚ := (chunk.map (fun x => |x|)).foldr max 0

/-- `audio = audio / np.max(np.abs(audio)) if np.max(np.abs(audio)) > 0 else audio`. -/
def normalizeChunk (chunk : List ℚ) : List ℚ :=
  if 0 < peakAbs chunk then chunk.map (fun x => x / peakAbs chunk) else chunk

/-! ### The concurrent detection / response machine

An interleaving semantics for the shared-state part of `1.py`:

* the detection step of `transcribe_and_detect` (lines 97-105): for each
  transcript, `if result["text"].strip():` print it and, under
  `response_lock`, `if KEYWORD in result["text"] and not has_responded:`
  spawn a `speak_response` thread;
* each spawned `speak_response` thread (lines 44-54): under
  `response_lock`, re-check the flag; if clear, speak (holding the lock
  for the whole of `engine.say` / `engine.runAndWait`), then set
  `has_responded = True` and start `threading.Timer(30,
  reset_response_status)`;
* each armed timer, whose callback `reset_response_status` (lines 56-61)
  takes the lock and clears the flag.

Lock-protected straight-line critical sections are compressed into single
atomic steps enabled only when the lock is free; the only code that holds
the lock across a suspension is `speak_response` while speaking, which is
therefore an explicit intermediate task state. A schedule is a list of
choices of which thread moves next; a step whose thread is not enabled
(e.g. blocked on the lock) leaves the state unchanged. -/

/-- Program counter of one spawned `speak_response` thread. -/
inductive TaskState where
  | ready     -- spawned, has not yet acquired `response_lock`
  | speaking  -- inside `engine.say` / `engine.runAndWait`, holding the lock
  | done
deriving DecidableEq

/-- Shared state of the detector, the spawned response tasks and the
cool-down timers. -/
structure SysState where
  has_responded : Bool
  /-- Which response task (by spawn index) holds `response_lock` across
  the current step, `none` if the lock is free. -/
  lockOwner : Option Nat
  /-- Spawned `speak_response` tasks, in spawn order. -/
  tasks : List TaskState
  /-- Durations of armed `threading.Timer`s. -/
  timers : List Nat
  /-- How many timers have fired (`reset_response_status` runs). -/
  fired : Nat
  /-- How many utterances have completed. -/
  spoken : Nat
  /-- Transcripts not yet processed by the detection step. -/
  pending : List String
  /-- Transcripts printed as content by the detection step. -/
  logged : List String
deriving DecidableEq

/-- Which thread moves next. -/
inductive Choice where
  | det          -- the transcription/detection loop
  | task (i : Nat)  -- the i-th spawned `speak_response` thread
  | timer        -- the oldest armed cool-down timer fires
deriving DecidableEq

/-- Detection step for the next pending transcript (`1.py` lines 97-105).
A whitespace-only transcript is consumed with no other effect; otherwise
the step needs `response_lock`, logs the transcript, and spawns a response
task if the keyword is present and `has_responded` is clear. -/
def detStep (s : SysState) : SysState :=
  match s.pending with
  | [] => s
  | t :: rest =>
    if pyStrip t.toList = [] then { s with pending := rest }
    else
      match s.lockOwner with
      | some _ => s  -- blocked: a response task holds `response_lock`
      | none =>
        let s' := { s with pending := rest, logged := s.logged ++ [t] }
        if keywordIn t = true ∧ s.has_responded = false then
          { s' with tasks := s'.tasks ++ [TaskState.ready] }
        else s'

/-- One step of the `i`-th spawned `speak_response` thread
(`1.py` lines 44-54). -/
def taskStep (i : Nat) (s : SysState) : SysState :=
  match s.tasks.get? i with
  | none => s
  | some TaskState.done => s
  | some TaskState.ready =>
    match s.lockOwner with
    | some _ => s  -- blocked on `response_lock`
    | none =>
      if s.has_responded then
        -- `if not has_responded:` fails; release the lock and exit
        { s with tasks := s.tasks.set i TaskState.done }
      else
        -- begin `engine.say` / `engine.runAndWait`, holding the lock
        { s with tasks := s.tasks.set i TaskState.speaking,
                 lockOwner := some i }
  | some TaskState.speaking =>
    match s.lockOwner with
    | some j =>
      if j = i then
        -- playback completes: set the flag, arm the cool-down timer,
        -- release the lock
        { s with tasks := s.tasks.set i TaskState.done,
                 lockOwner := none,
                 has_responded := true,
                 timers := s.timers ++ [cooldownSeconds],
                 spoken := s.spoken + 1 }
      else s
    | none => s

/-- An armed timer fires: `reset_response_status` (`1.py` lines 56-61)
takes `response_lock` and clears `has_responded`. -/
def timerStep (s : SysState) : SysState :=
  match s.timers with
  | [] => s
  | _ :: rest =>
    match s.lockOwner with
    | some _ => s  -- blocked on `response_lock`
    | none => { s with timers := rest, fired := s.fired + 1,
                       has_responded := false }

def step : Choice → SysState → SysState
  | Choice.det, s => detStep s
  | Choice.task i, s => taskStep i s
  | Choice.timer, s => timerStep s

/-- Initial state: `has_responded = False`, lock free, no tasks or timers,
a stream of transcripts to process. -/
def initState (ts : List String) : SysState :=
  ⟨false, none, [], [], 0, 0, ts, []⟩

/-- Run the machine from the initial state under a schedule. -/
def run (ts : List String) (sched : List Choice) : SysState :=
  sched.foldl (fun s c => step c s) (initState ts)

/-- No two response tasks are speaking at the same time. -/
def NoOverlap (s : SysState) : Prop :=
  ∀ i j, s.tasks.get? i = some TaskState.speaking →
    s.tasks.get? j = some TaskState.speaking → i = j

/-- `target_frames = int(SAMPLING_RATE * CHUNK_DURATION)` in `1.py` line 72. -/
def target_frames : Nat := SAMPLING_RATE * CHUNK_DURATION

/-- `target_frames` with `test.py`'s 2-second `CHUNK_DURATION` (line 40 of
`test.py`), the configuration of the spec's chunking scenarios. -/
def target_frames_test : Nat := SAMPLING_RATE * CHUNK_DURATION_TEST

/-- 1 while a response task holds `response_lock`, else 0. -/
def lockBusy (s : SysState) : Nat :=
  match s.lockOwner with
  | none => 0
  | some _ => 1

/-- Inductive invariant of the machine: the lock is held exactly by the
speaking task, the flag is only ever true with the lock free, and completed
utterances outrun timer fires by at most one. -/
def SysInv (s : SysState) : Prop :=
  (∀ i, s.tasks.get? i = some TaskState.speaking ↔ s.lockOwner = some i)
  ∧ (s.has_responded = true → s.lockOwner = none)
  ∧ s.spoken + lockBusy s ≤ s.fired + 1
  ∧ (s.has_responded = false → s.lockOwner = none → s.spoken ≤ s.fired)

/-! ## Theorems -/

/-! ### Substring detection (claim C7) -/

theorem beginsWith_iff (pat : List Char) :
    ∀ l, beginsWith pat l = true ↔ ∃ rest, l = pat ++ rest := by
  induction pat with
  | nil =>
    intro l
    simp [beginsWith]
  | cons p ps ih =>
    intro l
    cases l with
    | nil => simp [beginsWith]
    | cons c cs =>
      simp only [beginsWith, Bool.and_eq_true, beq_iff_eq, ih,
        List.cons_append, List.cons.injEq]
      constructor
      · rintro ⟨rfl, rest, rfl⟩
        exact ⟨rest, rfl, rfl⟩
      · rintro ⟨rest, rfl, rfl⟩
        exact ⟨rfl, rest, rfl⟩

theorem hasSubstring_iff (pat : List Char) :
    ∀ l, hasSubstring pat l = true ↔ ∃ pre post, l = pre ++ pat ++ post := by
  intro l
  induction l with
  | nil =>
    simp only [hasSubstring, List.isEmpty_iff]
    constructor
    · rintro rfl
      exact ⟨[], [], rfl⟩
    · rintro ⟨pre, post, h⟩
      rcases List.append_eq_nil.mp h.symm with ⟨h1, h2⟩
      exact (List.append_eq_nil.mp h1).2
  | cons c cs ih =>
    simp only [hasSubstring, Bool.or_eq_true, beginsWith_iff, ih]
    constructor
    · rintro (⟨rest, h⟩ | ⟨pre, post, h⟩)
      · exact ⟨[], rest, by simp [h]⟩
      · exact ⟨c :: pre, post, by simp [h]⟩
    · rintro ⟨pre, post, h⟩
      cases pre with
      | nil => exact Or.inl ⟨post, by simpa using h⟩
      | cons c' pre' =>
        simp only [List.cons_append, List.cons.injEq] at h
        exact Or.inr ⟨pre', post, h.2⟩

/-- C7: keyword detection is exact literal substring membership of the
trigger phrase in the transcript (`KEYWORD in result["text"]`, `1.py`
line 102): "hello, 導診助手, how are you" is detected, the phonetic
"daoshen zhushou" is not, and in general detection holds exactly when the
transcript splits as `pre ++ KEYWORD ++ post` — no fuzzy matching. -/
theorem claim_C7 :
    keywordIn "hello, 導診助手, how are you" = true
    ∧ keywordIn "daoshen zhushou" = false
    ∧ ∀ t : String, keywordIn t = true ↔
        ∃ pre post, t.toList = pre ++ KEYWORD.toList ++ post := by
  refine ⟨by decide, by decide, fun t => ?_⟩
  exact hasSubstring_iff KEYWORD.toList t.toList

/-! ### Peak normalization (claims C5, C6) -/

theorem peakAbs_nil : peakAbs [] = 0 := rfl

theorem peakAbs_cons (x : ℚ) (l : List ℚ) :
    peakAbs (x :: l) = max |x| (peakAbs l) := rfl

theorem peakAbs_nonneg (l : List ℚ) : 0 ≤ peakAbs l := by
  induction l with
  | nil => simp [peakAbs_nil]
  | cons x l ih => rw [peakAbs_cons]; exact le_trans ih (le_max_right _ _)

theorem peakAbs_map_div (l : List ℚ) (p : ℚ) (hp : 0 < p) :
    peakAbs (l.map (fun x => x / p)) = peakAbs l / p := by
  induction l with
  | nil => simp [peakAbs_nil]
  | cons x l ih =>
    rw [List.map_cons, peakAbs_cons, peakAbs_cons, ih, abs_div,
      abs_of_pos hp, max_div_div_right hp.le]

theorem peakAbs_eq_zero_iff (l : List ℚ) :
    peakAbs l = 0 ↔ ∀ x ∈ l, x = 0 := by
  induction l with
  | nil => simp [peakAbs_nil]
  | cons x l ih =>
    rw [peakAbs_cons]
    constructor
    · intro h
      have hx : |x| ≤ 0 := h ▸ le_max_left _ _
      have hl : peakAbs l ≤ 0 := h ▸ le_max_right _ _
      have hx0 : x = 0 := abs_eq_zero.mp (le_antisymm hx (abs_nonneg x))
      have hl0 := ih.mp (le_antisymm hl (peakAbs_nonneg l))
      intro y hy
      rcases List.mem_cons.mp hy with rfl | hy
      · exact hx0
      · exact hl0 y hy
    · intro h
      have hx0 : x = 0 := h x (List.mem_cons_self x l)
      have hl0 : peakAbs l = 0 := ih.mpr fun y hy => h y (List.mem_cons_of_mem x hy)
      simp [hx0, hl0]

/-- C5: for every chunk whose peak absolute amplitude is positive, the
normalized chunk (`audio / np.max(np.abs(audio))`, `1.py` line 87) has
peak absolute amplitude exactly 1. -/
theorem claim_C5 (chunk : List ℚ) (h : 0 < peakAbs chunk) :
    peakAbs (normalizeChunk chunk) = 1 := by
  rw [normalizeChunk, if_pos h, peakAbs_map_div chunk (peakAbs chunk) h,
    div_self (ne_of_gt h)]

/-- Witness for C5 at the one-sample chunk `[1]`. -/
theorem claim_C5_witness :
    0 < peakAbs [(1 : ℚ)] ∧ peakAbs (normalizeChunk [(1 : ℚ)]) = 1 :=
  ⟨by simp [peakAbs_cons, peakAbs_nil], claim_C5 [(1 : ℚ)] (by simp [peakAbs_cons, peakAbs_nil])⟩

/-- C6: the peak is zero exactly for all-zero chunks, and on those the
normalization guard (`if np.max(np.abs(audio)) > 0 else audio`, `1.py`
line 87) passes the chunk through unchanged — no division by zero. -/
theorem claim_C6 (chunk : List ℚ) :
    (peakAbs chunk = 0 ↔ ∀ x ∈ chunk, x = 0)
    ∧ (peakAbs chunk = 0 → normalizeChunk chunk = chunk) := by
  refine ⟨peakAbs_eq_zero_iff chunk, fun h => ?_⟩
  rw [normalizeChunk, if_neg]
  rw [h]
  exact lt_irrefl 0

/-- Witness for C6 at the all-zero chunk `[0, 0]`. -/
theorem claim_C6_witness :
    normalizeChunk [(0 : ℚ), 0] = [(0 : ℚ), 0] :=
  (claim_C6 [(0 : ℚ), 0]).2 (by simp [peakAbs_cons, peakAbs_nil])

/-! ### Chunk assembly (claims C4, C10) -/

theorem sumLens_nil : sumLens [] = 0 := rfl

theorem sumLens_cons (f : List ℚ) (fs : List (List ℚ)) :
    sumLens (f :: fs) = f.length + sumLens fs := by
  simp [sumLens]

theorem sumLens_append (fs gs : List (List ℚ)) :
    sumLens (fs ++ gs) = sumLens fs + sumLens gs := by
  simp [sumLens]

theorem collectLoop_stop {target c : Nat} (h : ¬ c < target)
    (acc : List (List ℚ)) (input : List PopResult) :
    collectLoop target c acc input = (acc, input) := by
  rw [collectLoop.eq_def]
  simp [h]

theorem collectLoop_timeout {target c : Nat} (h : c < target)
    (acc : List (List ℚ)) (rest : List PopResult) :
    collectLoop target c acc (PopResult.timeout :: rest) = (acc, rest) := by
  rw [collectLoop.eq_def]
  simp [h]

theorem collectLoop_frame {target c : Nat} (h : c < target)
    (acc : List (List ℚ)) (f : List ℚ) (rest : List PopResult) :
    collectLoop target c acc (PopResult.frame f :: rest)
      = collectLoop target (c + f.length) (acc ++ [f]) rest := by
  rw [collectLoop.eq_def]
  simp [h]

/-- If the frames on offer do not reach the target, the loop consumes all
of them and breaks on the following timeout with the partial set. -/
theorem collectLoop_under_target {target : Nat} :
    ∀ (fs : List (List ℚ)) (c : Nat) (acc : List (List ℚ)) (rest : List PopResult),
      c + sumLens fs < target →
      collectLoop target c acc (fs.map PopResult.frame ++ PopResult.timeout :: rest)
        = (acc ++ fs, rest) := by
  intro fs
  induction fs with
  | nil =>
    intro c acc rest h
    rw [sumLens_nil, Nat.add_zero] at h
    simpa using collectLoop_timeout h acc rest
  | cons f fs ih =>
    intro c acc rest h
    rw [sumLens_cons] at h
    have hc : c < target := by omega
    rw [List.map_cons, List.cons_append, collectLoop_frame hc,
      ih (c + f.length) (acc ++ [f]) rest (by omega)]
    simp

/-- If the offered frames are nonempty and their samples sum exactly to
the remaining target, the loop consumes precisely those frames and stops,
leaving the rest of the stream unread. -/
theorem collectLoop_exact_target {target : Nat} :
    ∀ (fs : List (List ℚ)) (c : Nat) (acc : List (List ℚ)) (rest : List PopResult),
      (∀ f ∈ fs, f ≠ []) → c + sumLens fs = target →
      collectLoop target c acc (fs.map PopResult.frame ++ rest)
        = (acc ++ fs, rest) := by
  intro fs
  induction fs with
  | nil =>
    intro c acc rest _ h
    rw [sumLens_nil, Nat.add_zero] at h
    subst h
    simpa using collectLoop_stop (lt_irrefl c) acc rest
  | cons f fs ih =>
    intro c acc rest hne h
    rw [sumLens_cons] at h
    have hf : f ≠ [] := hne f (List.mem_cons_self f fs)
    have hflen : 0 < f.length := List.length_pos.mpr hf
    have hc : c < target := by omega
    rw [List.map_cons, List.cons_append, collectLoop_frame hc,
      ih (c + f.length) (acc ++ [f]) rest
        (fun g hg => hne g (List.mem_cons_of_mem f hg)) (by omega)]
    simp

/-- C4: the assembler accumulates popped frames until the sample count
reaches the target or a pop times out with at least one frame collected;
with `test.py`'s configuration the target is `16000 * 2 = 32000` samples,
frames summing to exactly 32000 yield one chunk of 32000 samples, frames
summing to 31999 followed by a timeout yield one chunk of 31999 samples,
and a timeout before any frame yields no chunk (the loop retries). -/
theorem claim_C4 :
    target_frames_test = 32000
    ∧ (∀ (fs : List (List ℚ)) (rest : List PopResult),
        (∀ f ∈ fs, f ≠ []) → sumLens fs = 32000 →
        assembleChunk 32000 (fs.map PopResult.frame ++ rest)
          = (some fs.flatten, rest) ∧ fs.flatten.length = 32000)
    ∧ (∀ (fs : List (List ℚ)) (rest : List PopResult),
        fs ≠ [] → sumLens fs = 31999 →
        assembleChunk 32000 (fs.map PopResult.frame ++ PopResult.timeout :: rest)
          = (some fs.flatten, rest) ∧ fs.flatten.length = 31999)
    ∧ (∀ rest : List PopResult,
        assembleChunk 32000 (PopResult.timeout :: rest) = (none, rest)) := by
  refine ⟨rfl, fun fs rest hne hsum => ?_, fun fs rest hfs hsum => ?_, fun rest => ?_⟩
  · have hlen : fs.flatten.length = 32000 := by
      rw [List.length_flatten]
      exact hsum
    have hfs : fs ≠ [] := by
      intro h
      rw [h, sumLens_nil] at hsum
      exact absurd hsum (by omega)
    rw [assembleChunk, collectLoop_exact_target fs 0 [] rest hne (by omega)]
    simp [hfs, hlen]
  · have hlen : fs.flatten.length = 31999 := by
      rw [List.length_flatten]
      exact hsum
    rw [assembleChunk, collectLoop_under_target fs 0 [] rest (by omega)]
    simp [hfs, hlen]
  · rw [assembleChunk, collectLoop_timeout (by omega) [] rest]
    simp

/-- Witness for C4: two nonempty frames of 16000 samples reach the target
exactly; one frame of 31999 samples followed by a timeout gives a partial
chunk. -/
theorem claim_C4_witness :
    assembleChunk 32000
        (([List.replicate 16000 (0 : ℚ), List.replicate 16000 1]).map PopResult.frame
          ++ [PopResult.timeout])
      = (some ([List.replicate 16000 (0 : ℚ), List.replicate 16000 1] :
          List (List ℚ)).flatten, [PopResult.timeout])
    ∧ assembleChunk 32000
        (([List.replicate 31999 (0 : ℚ)]).map PopResult.frame ++ PopResult.timeout :: [])
      = (some ([List.replicate 31999 (0 : ℚ)] : List (List ℚ)).flatten, [])
    ∧ assembleChunk 32000 [PopResult.timeout] = (none, []) := by
  refine ⟨?_, ?_, claim_C4.2.2.2 []⟩
  · exact (claim_C4.2.1 [List.replicate 16000 (0 : ℚ), List.replicate 16000 1]
      [PopResult.timeout]
      (by
        intro f hf
        rcases List.mem_cons.mp hf with rfl | hf
        · exact List.ne_nil_of_length_pos (by rw [List.length_replicate]; omega)
        · rcases List.mem_cons.mp hf with rfl | hf
          · exact List.ne_nil_of_length_pos (by rw [List.length_replicate]; omega)
          · simp at hf)
      (by rw [sumLens_cons, sumLens_cons, sumLens_nil, List.length_replicate,
              List.length_replicate])).1
  · exact (claim_C4.2.2.1 [List.replicate 31999 (0 : ℚ)] []
      (List.cons_ne_nil _ _)
      (by rw [sumLens_cons, sumLens_nil, List.length_replicate])).1

/-- Every frame is appended only while the running total is below the
target, so the collected frames minus the last one always sum to less
than the target. -/
theorem collectLoop_shape {target : Nat} :
    ∀ (input : List PopResult) (c : Nat) (acc : List (List ℚ)),
      ∃ new, (collectLoop target c acc input).1 = acc ++ new
        ∧ (new = [] ∨ c + sumLens new.dropLast < target) := by
  intro input
  induction input with
  | nil =>
    intro c acc
    refine ⟨[], ?_, Or.inl rfl⟩
    by_cases hc : c < target <;> rw [collectLoop.eq_def] <;> simp [hc]
  | cons pr rest ih =>
    intro c acc
    by_cases hc : c < target
    · cases pr with
      | timeout =>
        exact ⟨[], by rw [collectLoop_timeout hc]; simp, Or.inl rfl⟩
      | frame f =>
        obtain ⟨new', h1, h2⟩ := ih (c + f.length) (acc ++ [f])
        refine ⟨f :: new', by rw [collectLoop_frame hc, h1]; simp, Or.inr ?_⟩
        cases new' with
        | nil => simpa using hc
        | cons x xs =>
          rcases h2 with h2 | h2
          · exact absurd h2 (List.cons_ne_nil x xs)
          · have hd : (f :: x :: xs).dropLast = f :: (x :: xs).dropLast := rfl
            rw [hd, sumLens_cons]
            omega
    · exact ⟨[], by rw [collectLoop_stop hc]; simp, Or.inl rfl⟩

/-- C10: an assembled chunk's sample count is strictly less than the
target plus the length of its last frame; in particular with 1024-sample
frames it exceeds the target by at most 1023 samples. -/
theorem claim_C10 (target : Nat) (input : List PopResult)
    (fs : List (List ℚ)) (rest : List PopResult)
    (h : collectLoop target 0 [] input = (fs, rest)) (hne : fs ≠ []) :
    sumLens fs < target + (fs.getLast hne).length
    ∧ ((∀ f ∈ fs, f.length = 1024) → sumLens fs ≤ target + 1023) := by
  obtain ⟨new, h1, h2⟩ := collectLoop_shape input 0 []
  rw [h] at h1
  simp only [List.nil_append] at h1
  subst h1
  rcases h2 with rfl | h2
  · exact absurd rfl hne
  · have hsplit : fs.dropLast ++ [fs.getLast hne] = fs :=
      List.dropLast_append_getLast hne
    have hsum : sumLens fs = sumLens fs.dropLast + (fs.getLast hne).length := by
      conv_lhs => rw [← hsplit]
      rw [sumLens_append, sumLens_cons, sumLens_nil]
      omega
    constructor
    · omega
    · intro hall
      have : (fs.getLast hne).length = 1024 := hall _ (List.getLast_mem hne)
      omega

/-- Witness for C10: a single 1024-sample frame against a target of 1000
samples overshoots by at most 1023. -/
theorem claim_C10_witness :
    sumLens [List.replicate 1024 (0 : ℚ)]
      < 1000 + (([List.replicate 1024 (0 : ℚ)]).getLast (List.cons_ne_nil _ _)).length
    ∧ ((∀ f ∈ [List.replicate 1024 (0 : ℚ)], f.length = 1024) →
        sumLens [List.replicate 1024 (0 : ℚ)] ≤ 1000 + 1023) :=
  claim_C10 1000 [PopResult.frame (List.replicate 1024 0)]
    [List.replicate 1024 0] []
    (by
      rw [collectLoop_frame (by omega),
        collectLoop_stop (by rw [List.length_replicate]; omega)]
      simp only [List.nil_append])
    (List.cons_ne_nil _ _)

/-! ### Trigger handling (claims C1, C2, C3, C8) -/

/-- C1 as stated is false: the detection step (`1.py` lines 101-105) only
spawns the `speak_response` thread and does not write `has_responded`;
the flag is set inside `speak_response` after playback. Concretely, after
the first trigger transcript is processed the flag is still `false`, and
a second trigger transcript processed before the spawned thread runs
spawns a second task, with no cool-down reset in between. -/
theorem claim_C1_counterexample :
    (run [KEYWORD, KEYWORD] [Choice.det]).has_responded = false
    ∧ (run [KEYWORD, KEYWORD] [Choice.det]).tasks = [TaskState.ready]
    ∧ (run [KEYWORD, KEYWORD] [Choice.det, Choice.det]).tasks
        = [TaskState.ready, TaskState.ready]
    ∧ (run [KEYWORD, KEYWORD] [Choice.det, Choice.det]).fired = 0 := by
  decide

/-- C1 amended: processing a non-whitespace trigger transcript while
`responded == false` (with the response lock free) starts exactly one
response task, but `responded` stays `false` at that point — it is set
only later, by the spawned task, after playback; hence two trigger
transcripts processed within one cool-down window can start two tasks
(of which at most one speaks). -/
theorem claim_C1_amended (s : SysState) (t : String) (rest : List String)
    (hp : s.pending = t :: rest) (hl : s.lockOwner = none)
    (hw : pyStrip t.toList ≠ [])
    (hk : keywordIn t = true) (hr : s.has_responded = false) :
    (step Choice.det s).tasks = s.tasks ++ [TaskState.ready]
    ∧ (step Choice.det s).has_responded = false
    ∧ (step Choice.det s).pending = rest := by
  show (detStep s).tasks = _ ∧ (detStep s).has_responded = _ ∧ (detStep s).pending = _
  simp only [detStep, hp, hl, if_neg hw, if_pos (And.intro hk hr)]
  simp [hr]

/-- Witness for C1 (amended) at the initial state with one trigger
transcript. -/
theorem claim_C1_witness :
    (step Choice.det (initState [KEYWORD])).tasks
      = (initState [KEYWORD]).tasks ++ [TaskState.ready]
    ∧ (step Choice.det (initState [KEYWORD])).has_responded = false
    ∧ (step Choice.det (initState [KEYWORD])).pending = [] :=
  claim_C1_amended (initState [KEYWORD]) KEYWORD [] rfl rfl (by decide)
    (by decide) rfl

/-- C2 as stated is false: the cool-down timer is not started at the
moment the response task begins. Concretely, while the spawned task is
mid-playback (state `speaking`) no timer is armed yet —
`threading.Timer(30, ...)` is started only after `engine.runAndWait()`
returns (`1.py` lines 51-54), so cool-down is measured from speech
completion, not from trigger time. -/
theorem claim_C2_counterexample :
    (run [KEYWORD] [Choice.det, Choice.task 0]).tasks = [TaskState.speaking]
    ∧ (run [KEYWORD] [Choice.det, Choice.task 0]).timers = []
    ∧ (run [KEYWORD] [Choice.det, Choice.task 0]).spoken = 0 := by
  decide

/-- C2 amended: the 30-second cool-down timer is armed when the response
task finishes playback (together with setting `responded := true`, under
the lock); when it fires it sets `responded` back to `false` under the
same lock, and a matching transcript processed after that starts a new
response task. -/
theorem claim_C2_amended :
    cooldownSeconds = 30
    ∧ (∀ (s : SysState) (i : Nat),
        s.tasks.get? i = some TaskState.speaking → s.lockOwner = some i →
        (step (Choice.task i) s).timers = s.timers ++ [cooldownSeconds]
        ∧ (step (Choice.task i) s).has_responded = true
        ∧ (step (Choice.task i) s).lockOwner = none)
    ∧ (∀ (s : SysState) (d : Nat) (ds : List Nat),
        s.timers = d :: ds → s.lockOwner = none →
        (step Choice.timer s).has_responded = false
        ∧ (step Choice.timer s).timers = ds)
    ∧ ((run [KEYWORD, KEYWORD]
          [Choice.det, Choice.task 0, Choice.task 0, Choice.timer, Choice.det]).tasks
        = [TaskState.done, TaskState.ready]
      ∧ (run [KEYWORD, KEYWORD]
          [Choice.det, Choice.task 0, Choice.task 0, Choice.timer, Choice.det]).fired
        = 1) := by
  refine ⟨rfl, ?_, ?_, by decide, by decide⟩
  · intro s i h1 h2
    show (taskStep i s).timers = _ ∧ (taskStep i s).has_responded = _
      ∧ (taskStep i s).lockOwner = _
    simp only [taskStep, h1, h2, if_pos rfl]
    simp
  · intro s d ds h1 h2
    show (timerStep s).has_responded = _ ∧ (timerStep s).timers = _
    simp only [timerStep, h1, h2]
    simp

/-- Witness for C2 (amended): completing playback in a concrete reachable
state arms the 30-second timer and sets the flag. -/
theorem claim_C2_witness :
    (step (Choice.task 0) (run [KEYWORD] [Choice.det, Choice.task 0])).timers
      = (run [KEYWORD] [Choice.det, Choice.task 0]).timers ++ [cooldownSeconds]
    ∧ (step (Choice.task 0) (run [KEYWORD] [Choice.det, Choice.task 0])).has_responded
      = true :=
  ⟨(claim_C2_amended.2.1 _ 0 (by decide) (by decide)).1,
   (claim_C2_amended.2.1 _ 0 (by decide) (by decide)).2.1⟩

/-- C3 as stated is false: `speak_response` holds `response_lock` for the
whole of speech synthesis and playback (`1.py` lines 47-51), and the
detection step acquires that same lock (line 101), so the loop can block.
Concretely, with a response task mid-playback and a non-empty transcript
next in line, the detection step makes no progress. -/
theorem claim_C3_counterexample :
    (run [KEYWORD, "你好"] [Choice.det, Choice.task 0]).tasks = [TaskState.speaking]
    ∧ (run [KEYWORD, "你好"] [Choice.det, Choice.task 0]).pending = ["你好"]
    ∧ step Choice.det (run [KEYWORD, "你好"] [Choice.det, Choice.task 0])
        = run [KEYWORD, "你好"] [Choice.det, Choice.task 0] := by
  decide

/-- C3 amended: chunk assembly and transcription never touch the response
lock, but the keyword-detection step of the loop does: while a response
task holds the lock (speaking), detection of a non-whitespace transcript
is blocked; whenever the lock is free the step consumes the next
transcript, and once playback finishes the blocked detection proceeds. -/
theorem claim_C3_amended :
    (∀ (s : SysState) (i : Nat) (t : String) (rest : List String),
        s.lockOwner = some i → s.pending = t :: rest →
        pyStrip t.toList ≠ [] →
        step Choice.det s = s)
    ∧ (∀ (s : SysState) (t : String) (rest : List String),
        s.lockOwner = none → s.pending = t :: rest →
        (step Choice.det s).pending = rest)
    ∧ (step Choice.det
        (step (Choice.task 0) (run [KEYWORD, "你好"] [Choice.det, Choice.task 0]))).pending
      = [] := by
  refine ⟨?_, ?_, by decide⟩
  · intro s i t rest hl hp hw
    show detStep s = s
    simp only [detStep, hp, hl, if_neg hw]
  · intro s t rest hl hp
    show (detStep s).pending = rest
    by_cases h : pyStrip t.toList = []
    · simp only [detStep, hp, hl, if_pos h]
    · by_cases hk : keywordIn t = true ∧ s.has_responded = false
      · simp only [detStep, hp, hl, if_neg h, if_pos hk]
      · simp only [detStep, hp, hl, if_neg h, if_neg hk]

/-- Witness for C3 (amended) at the concrete blocked state. -/
theorem claim_C3_witness :
    step Choice.det (run [KEYWORD, "你好"] [Choice.det, Choice.task 0])
      = run [KEYWORD, "你好"] [Choice.det, Choice.task 0] :=
  claim_C3_amended.1 _ 0 "你好" [] (by decide) (by decide) (by decide)

/-- A whitespace-only string strips to the empty string. -/
theorem pyStrip_all_space {l : List Char} (h : ∀ c ∈ l, isPySpace c = true) :
    pyStrip l = [] := by
  have h1 : l.dropWhile isPySpace = [] := by
    rw [List.dropWhile_eq_nil_iff]
    exact h
  rw [pyStrip, h1]
  rfl

/-- C8: a transcription result that is empty or whitespace-only fails the
`if result["text"].strip():` test (`1.py` line 97) and is silently
skipped: it is not logged as content, not passed to keyword detection,
and the only state change of that iteration's detection step is consuming
the transcript — flag, tasks, timers and log are untouched. -/
theorem claim_C8 (s : SysState) (t : String) (rest : List String)
    (hp : s.pending = t :: rest)
    (hw : ∀ c ∈ t.toList, isPySpace c = true) :
    step Choice.det s = { s with pending := rest } := by
  have h := pyStrip_all_space hw
  show detStep s = _
  simp only [detStep, hp, if_pos h]

/-- Witness for C8: a whitespace-only transcript ahead of a trigger
transcript is consumed with no other effect. -/
theorem claim_C8_witness :
    step Choice.det (initState [" ", KEYWORD])
      = { initState [" ", KEYWORD] with pending := [KEYWORD] } :=
  claim_C8 (initState [" ", KEYWORD]) " " [KEYWORD] rfl (by decide)

/-! ### Mutual exclusion of utterances (claim C9) -/

theorem get?_append_one {α : Type _} (l : List α) (a : α) :
    ∀ i, (l ++ [a]).get? i = if i = l.length then some a else l.get? i := by
  induction l with
  | nil =>
    intro i
    cases i with
    | zero => simp
    | succ n => simp
  | cons x xs ih =>
    intro i
    cases i with
    | zero => simp
    | succ n =>
      simp only [List.cons_append, List.get?_cons_succ, ih n, List.length_cons]
      rcases eq_or_ne n xs.length with h | h
      · rw [if_pos h, if_pos (by omega)]
      · rw [if_neg h, if_neg (by omega)]

theorem SysInv_initState (ts : List String) : SysInv (initState ts) := by
  refine ⟨fun i => ?_, fun h => rfl, ?_, fun _ _ => le_refl 0⟩
  · simp [initState]
  · simp [initState, lockBusy]

theorem SysInv_detStep {s : SysState} (hs : SysInv s) : SysInv (detStep s) := by
  obtain ⟨h1, h2, h3, h4⟩ := hs
  rcases hp : s.pending with _ | ⟨t, rest⟩
  · simp only [detStep, hp]
    exact ⟨h1, h2, h3, h4⟩
  · by_cases hstrip : pyStrip t.toList = []
    · simp only [detStep, hp, if_pos hstrip]
      exact ⟨h1, h2, h3, h4⟩
    · rcases hl : s.lockOwner with _ | i
      · rw [hl] at h1 h2
        have hbusy : lockBusy s = 0 := by simp only [lockBusy, hl]
        rw [hbusy] at h3
        by_cases hk : keywordIn t = true ∧ s.has_responded = false
        · simp only [detStep, hp, if_neg hstrip, hl, if_pos hk]
          refine ⟨fun j => ?_, fun _ => rfl, ?_, fun hr _ => h4 hr hl⟩
          · rw [get?_append_one]
            rcases eq_or_ne j s.tasks.length with h | h
            · simp [h]
            · rw [if_neg h]
              exact h1 j
          · simp only [lockBusy]
            omega
        · simp only [detStep, hp, if_neg hstrip, hl, if_neg hk]
          refine ⟨h1, fun _ => rfl, ?_, fun hr _ => h4 hr hl⟩
          simp only [lockBusy]
          omega
      · simp only [detStep, hp, if_neg hstrip, hl]
        exact ⟨h1, h2, h3, h4⟩

theorem SysInv_taskStep {s : SysState} (i : Nat) (hs : SysInv s) :
    SysInv (taskStep i s) := by
  obtain ⟨h1, h2, h3, h4⟩ := hs
  rcases ht : s.tasks.get? i with _ | v
  · simp only [taskStep, ht]
    exact ⟨h1, h2, h3, h4⟩
  · cases v with
    | done =>
      simp only [taskStep, ht]
      exact ⟨h1, h2, h3, h4⟩
    | ready =>
      rcases hl : s.lockOwner with _ | j
      · by_cases hr : s.has_responded = true
        · simp only [taskStep, ht, hl, if_pos hr]
          rw [hl] at h1
          refine ⟨fun j => ?_, fun _ => rfl, ?_, fun hcf _ => ?_⟩
          · rw [List.get?_set]
            rcases eq_or_ne i j with h | h
            · subst h
              rw [if_pos rfl, ht]
              simp
            · rw [if_neg h]
              exact h1 j
          · have hbusy : lockBusy s = 0 := by simp only [lockBusy, hl]
            simp only [lockBusy]
            omega
          · rw [hr] at hcf
            exact absurd hcf (by simp)
        · have hrf : s.has_responded = false := by
            revert hr
            cases s.has_responded <;> simp
          simp only [taskStep, ht, hl, if_neg hr]
          rw [hl] at h1
          have hbusy : lockBusy s = 0 := by simp only [lockBusy, hl]
          rw [hbusy] at h3
          have hsf : s.spoken ≤ s.fired := h4 hrf hl
          refine ⟨fun j => ?_, fun hcf => absurd (hrf ▸ hcf) (by simp), ?_,
            fun _ hcl => absurd hcl (by simp)⟩
          · rw [List.get?_set]
            rcases eq_or_ne i j with h | h
            · subst h
              rw [if_pos rfl, ht]
              constructor
              · intro _
                rfl
              · intro _
                rfl
            · rw [if_neg h, h1 j]
              constructor
              · intro hcontra
                exact absurd hcontra (by simp)
              · intro hcontra
                exact absurd (Option.some.inj hcontra) h
          · simp only [lockBusy]
            omega
      · simp only [taskStep, ht, hl]
        exact ⟨h1, h2, h3, h4⟩
    | speaking =>
      rcases hl : s.lockOwner with _ | j
      · simp only [taskStep, ht, hl]
        exact ⟨h1, h2, h3, h4⟩
      · by_cases hj : j = i
        · subst hj
          simp only [taskStep, ht, hl, if_pos rfl, if_true]
          rw [hl] at h1
          have hbusy : lockBusy s = 1 := by simp only [lockBusy, hl]
          rw [hbusy] at h3
          refine ⟨fun k => ?_, fun _ => rfl, ?_, fun hcf _ => absurd hcf (by simp)⟩
          · rw [List.get?_set]
            rcases eq_or_ne j k with h | h
            · subst h
              rw [if_pos rfl, ht]
              constructor
              · intro hcontra
                simp at hcontra
              · intro hcontra
                exact absurd hcontra (by simp)
            · rw [if_neg h, h1 k]
              constructor
              · intro hcontra
                exact absurd (Option.some.inj hcontra) h
              · intro hcontra
                exact absurd hcontra (by simp)
          · simp only [lockBusy]
            omega
        · simp only [taskStep, ht, hl, if_neg hj]
          exact ⟨h1, h2, h3, h4⟩

theorem SysInv_timerStep {s : SysState} (hs : SysInv s) :
    SysInv (timerStep s) := by
  obtain ⟨h1, h2, h3, h4⟩ := hs
  rcases htm : s.timers with _ | ⟨d, ds⟩
  · simp only [timerStep, htm]
    exact ⟨h1, h2, h3, h4⟩
  · rcases hl : s.lockOwner with _ | j
    · simp only [timerStep, htm, hl]
      rw [hl] at h1
      have hbusy : lockBusy s = 0 := by simp only [lockBusy, hl]
      rw [hbusy] at h3
      refine ⟨h1, fun _ => rfl, ?_, fun _ _ => ?_⟩
      · simp only [lockBusy]
        omega
      · show s.spoken ≤ s.fired + 1
        omega
    · simp only [timerStep, htm, hl]
      exact ⟨h1, h2, h3, h4⟩

theorem SysInv_step (c : Choice) {s : SysState} (hs : SysInv s) :
    SysInv (step c s) := by
  cases c with
  | det => exact SysInv_detStep hs
  | task i => exact SysInv_taskStep i hs
  | timer => exact SysInv_timerStep hs

theorem SysInv_run (ts : List String) (sched : List Choice) :
    SysInv (run ts sched) := by
  rw [run]
  have h : ∀ (cs : List Choice) (s : SysState), SysInv s →
      SysInv (cs.foldl (fun s c => step c s) s) := by
    intro cs
    induction cs with
    | nil =>
      intro s hs
      exact hs
    | cons c cs ih =>
      intro s hs
      exact ih (step c s) (SysInv_step c hs)
  exact h sched (initState ts) (SysInv_initState ts)

/-- C9: in every state reachable under any schedule, no two response
tasks are mid-utterance at the same time (`response_lock`, held for the
whole playback, serializes the tasks that re-check `has_responded` under
it), and the number of completed utterances never exceeds the number of
cool-down resets plus one — at most one utterance per cool-down window. -/
theorem claim_C9 (ts : List String) (sched : List Choice) :
    NoOverlap (run ts sched)
    ∧ (run ts sched).spoken ≤ (run ts sched).fired + 1 := by
  obtain ⟨h1, _, h3, _⟩ := SysInv_run ts sched
  constructor
  · intro i j hi hj
    have hli := (h1 i).mp hi
    have hlj := (h1 j).mp hj
    rw [hli] at hlj
    exact Option.some.inj hlj
  · omega
